import Mathlib

/-!
Verification of the nail-salon point-of-sale / appointment manager.

The TypeScript source is embedded shallowly:
* ISO date strings / `Date` objects become `Int` timestamps in milliseconds
  (local time = UTC, no DST; `Date.prototype.getDay` is modelled from
  days-since-epoch, the epoch day being a Thursday).
* `Set<string>` (the notified-booking-id ledger) becomes an insertion-ordered
  duplicate-free `List String`.
* JS `Map` becomes an insertion-ordered association list with
  update-in-place-or-append semantics.
* JS string `trim` / `toLowerCase` are modelled character-wise so that they
  compute inside the kernel.
* `Array.prototype.sort(cmp)` (stable, per the ECMAScript spec) is modelled
  by a stable insertion sort taking `le a b := cmp a b ≤ 0`.
* The repository's `types.ts`, `useBills.ts`, `useServices.ts` and
  `useShopSettings.ts` are not in the source tree; record shapes follow the
  spec's data model (§3) and the fields the available code touches, and the
  collection `add` / `restore` / settings setters are modelled from the
  spec (§4.1, §6) where noted.
-/

namespace NailSpa

/-! ## Data model (spec §3; `types.ts` is not in the source tree) -/

inductive DiscountType where
  | percent
  | amount
deriving DecidableEq, Repr, Inhabited

structure ServiceItem where
  id : String
  serviceId : String
  name : String
  price : Int
  quantity : Int
  variantName : Option String
deriving DecidableEq, Repr, Inhabited

/-- Common record shape of `Bill` and `Booking`; a `Booking` carries
`createdAt`, a `Bill` created directly in the editor does not (spec §9:
structurally identical variants distinguished by the `createdAt` field). -/
structure BillRec where
  id : String
  customerName : String
  date : Int
  items : List ServiceItem
  total : Int
  discountValue : Int
  discountType : DiscountType
  note : String
  createdAt : Option Int
deriving DecidableEq, Repr, Inhabited

structure ServiceVariant where
  id : String
  name : String
  price : Int
deriving DecidableEq, Repr, Inhabited

inductive PriceType where
  | fixed
  | variablePrice
deriving DecidableEq, Repr, Inhabited

structure PredefinedService where
  id : String
  name : String
  price : Int
  priceType : PriceType
  variants : Option (List ServiceVariant)
  categoryId : Option String
  allowQuantity : Bool
deriving DecidableEq, Repr, Inhabited

structure ServiceCategory where
  id : String
  name : String
  order : Int
deriving DecidableEq, Repr, Inhabited

structure Customer where
  id : String
  name : String
  phone : Option String
  dob : Option String
deriving DecidableEq, Repr, Inhabited

/-! ## JS primitives -/

/-- Model of JS `String.prototype.trim`: strip leading and trailing
whitespace. -/
def jsTrim (s : String) : String :=
  ⟨((s.data.dropWhile Char.isWhitespace).reverse.dropWhile Char.isWhitespace).reverse⟩

/-- Model of JS `String.prototype.toLowerCase` (ASCII range). -/
def jsLower (s : String) : String :=
  ⟨s.data.map Char.toLower⟩

/-- Stable insertion step: place `a` before the first element `b` with
`le a b` (earlier-listed elements win ties, as required of the stable
`Array.prototype.sort`). -/
def jsInsert (le : α → α → Bool) (a : α) : List α → List α
  | [] => [a]
  | b :: l => if le a b then a :: b :: l else b :: jsInsert le a l

/-- Model of JS `Array.prototype.sort(cmp)` with `le a b := cmp a b ≤ 0`:
the (unique) stable sort for a total, transitive `le`. -/
def jsSort (le : α → α → Bool) : List α → List α
  | [] => []
  | a :: l => jsInsert le a (jsSort le l)

/-! ## BillEditor: totals and submit validation
(`src/components/BillEditor.tsx`) -/

/-- Source `calculateSubtotal`: sum of the (already quantity/variant-adjusted)
item prices. -/
def calculateSubtotal (items : List ServiceItem) : Int :=
  (items.map (·.price)).sum

/-- Source `calculateDiscountAmount`: the raw value for `amount` discounts,
and `Math.round(subtotal * (discountValue / 100))` for `percent` discounts.
`Math.round x = ⌊x + 1/2⌋`, i.e. `⌊(2*subtotal*dv + 100) / 200⌋` with floor
division. -/
def calculateDiscountAmount (items : List ServiceItem) (discountValue : Int)
    (discountType : DiscountType) : Int :=
  match discountType with
  | .percent => (2 * calculateSubtotal items * discountValue + 100) / 200
  | .amount => discountValue

/-- Source `calculateTotal = Math.max(0, subtotal - discount)`. -/
def calculateTotal (items : List ServiceItem) (discountValue : Int)
    (discountType : DiscountType) : Int :=
  max 0 (calculateSubtotal items - calculateDiscountAmount items discountValue discountType)

/-- Outcome of the editor submit handler: the three validation alerts
(each returns without calling `onSave`, so no collection is mutated), or
the record passed to `onSave`. -/
inductive SubmitResult where
  | missingName
  | noServices
  | pastBookingTime
  | saved (rec : BillRec)
deriving DecidableEq, Repr, Inhabited

/-- Submit handler `handleSubmit` of `BillEditor`.  `finalDate` is the
timestamp obtained from the date + time fields (`new Date(date)` with
`setHours`).  The three alert branches mirror the source order: empty
trimmed customer name, no item with a selected service, and — for bookings
only — a time in the past by more than the 60 000 ms tolerance. -/
def handleSubmit (now : Int) (isBooking : Bool) (orig : Option BillRec)
    (customerName : String) (finalDate : Int) (items : List ServiceItem)
    (discountValue : Int) (discountType : DiscountType) (note : String) :
    SubmitResult :=
  let finalItems := items.filter (fun item => item.serviceId ≠ "")
  if jsTrim customerName = "" then .missingName
  else if finalItems = [] then .noServices
  else if isBooking = true ∧ finalDate < now ∧ 60000 < now - finalDate then .pastBookingTime
  else .saved
    { id := (orig.map (·.id)).getD ""
      customerName := jsTrim customerName
      date := finalDate
      items := finalItems
      total := calculateTotal finalItems discountValue discountType
      discountValue := discountValue
      discountType := discountType
      note := jsTrim note
      createdAt := if isBooking then orig.bind (·.createdAt) else none }

/-- Editor `handleItemChange`: selecting a service for row `index` copies
the service's name and id, resets the quantity to 1 and takes the price
(first variant for variable-priced services, base price otherwise). -/
def handleItemChange (services : List PredefinedService) (items : List ServiceItem)
    (index : Nat) (selectedServiceId : String) : List ServiceItem :=
  match services.find? (fun s => s.id = selectedServiceId) with
  | none => items
  | some service =>
    match items[index]? with
    | none => items
    | some item =>
      let item := { item with serviceId := service.id, name := service.name, quantity := 1 }
      let item :=
        match service.priceType, service.variants with
        | .variablePrice, some (v :: _) =>
          { item with price := v.price, variantName := some v.name }
        | _, _ => { item with price := service.price, variantName := none }
      items.set index item

/-- Editor `handleQuantityChange`: the row price becomes the unit price
(variant price if a variant is selected) times the new quantity. -/
def handleQuantityChange (services : List PredefinedService) (items : List ServiceItem)
    (index : Nat) (newQuantity : Int) : List ServiceItem :=
  match items[index]? with
  | none => items
  | some item =>
    match services.find? (fun s => s.id = item.serviceId) with
    | none => items
    | some service =>
      let unitPrice :=
        match service.priceType, service.variants with
        | .variablePrice, some vs =>
          match vs.find? (fun v => some v.name = item.variantName) with
          | some v => v.price
          | none => service.price
        | _, _ => service.price
      items.set index { item with quantity := newQuantity, price := unitPrice * newQuantity }

/-! ## Booking due-notification engine
(`src/hooks/useBookings.ts`: `checkBookings`, `processNextBooking`,
`confirmDueBooking`, `confirmSnooze`, `deleteDueBooking`,
`handleConvertToBill`; the `useBookings` hook for `updateBooking` /
`deleteBooking`). -/

/-- Model of JS `Set.add`: a `Set<string>` keeps insertion order and never
holds duplicates. -/
def setAdd (s : List String) (x : String) : List String :=
  if x ∈ s then s else s ++ [x]

/-- Model of JS `Set.delete`. -/
def setDelete (s : List String) (x : String) : List String :=
  s.filter (fun y => y ≠ x)

/-- Engine state: the bill and booking collections, the persisted
`notifiedBookingIds` ledger and the in-memory `dueBookingQueue`. -/
structure EngineState where
  bills : List BillRec
  bookings : List BillRec
  notified : List String
  dueQueue : List BillRec
deriving DecidableEq, Repr, Inhabited

/-- The catch-up condition of a `checkBookings` pass for one booking:
`isDue = bookingDate <= now`, `isRecent = bookingDate > now - 24h`, and
`!notifiedBookingIds.has(booking.id)`. -/
def dueCond (now : Int) (notified : List String) (b : BillRec) : Prop :=
  b.date ≤ now ∧ now - 24 * 60 * 60 * 1000 < b.date ∧ b.id ∉ notified

instance (now : Int) (notified : List String) (b : BillRec) :
    Decidable (dueCond now notified b) := by
  unfold dueCond; infer_instance

/-- One booking's processing inside a `checkBookings` pass.  The
membership test `!notifiedBookingIds.has(booking.id)` reads the state
captured when the tick started (`notified0`), while the queue append
(deduplicated via `prevQueue.some`) and the ledger insertion use React
functional updates and therefore accumulate across the pass. -/
def checkStep (now : Int) (notified0 : List String)
    (acc : List BillRec × List String) (booking : BillRec) :
    List BillRec × List String :=
  if dueCond now notified0 booking then
    ((if acc.1.any (fun b => b.id = booking.id) then acc.1 else acc.1 ++ [booking]),
      setAdd acc.2 booking.id)
  else acc

/-- Source `checkBookings`, one poll tick over the current booking list
(runs once on mount and then every 5 seconds). -/
def checkBookings (now : Int) (bookings : List BillRec)
    (notified : List String) (queue : List BillRec) :
    List BillRec × List String :=
  bookings.foldl (checkStep now notified) (queue, notified)

/-- A poll tick as a state transformer. -/
def tick (now : Int) (s : EngineState) : EngineState :=
  let r := checkBookings now s.bookings s.notified s.dueQueue
  { s with dueQueue := r.1, notified := r.2 }

/-- Source `processNextBooking`: pop the queue head (and reset the
transient snooze/delete selection, which is presentation state outside
this embedding). -/
def processNextBooking (s : EngineState) : EngineState :=
  { s with dueQueue := s.dueQueue.drop 1 }

/-- Modelled from the spec: `useBills.addBill` is not in the source tree;
per spec §4.1 a collection `add` stores the record under a freshly
generated unique id, prepending (newest-first).  The generated id is a
parameter. -/
def addBill (freshId : String) (rec : BillRec) (bills : List BillRec) : List BillRec :=
  { rec with id := freshId } :: bills

/-- Source `deleteBooking` from the `useBookings` hook. -/
def deleteBooking (bookings : List BillRec) (bookingId : String) : List BillRec :=
  bookings.filter (fun b => b.id ≠ bookingId)

/-- Source `updateBooking` from the `useBookings` hook. -/
def updateBooking (bookings : List BillRec) (updated : BillRec) : List BillRec :=
  bookings.map (fun b => if b.id = updated.id then updated else b)

/-- Source `confirmDueBooking`: `const { id, ...billData } =
currentDueBooking` keeps every field but the id; the new bill gets
`date = now` and a fresh id from `addBill`; the booking is deleted and
the queue popped. -/
def confirmDueBooking (now : Int) (freshId : String) (s : EngineState) : EngineState :=
  match s.dueQueue with
  | [] => s
  | b :: rest =>
    { s with
        bills := addBill freshId { b with date := now } s.bills
        bookings := deleteBooking s.bookings b.id
        dueQueue := rest }

/-- Source `confirmSnooze`: guarded by a truthy `snoozeDuration` (null is
modelled as 0); reschedules the head booking to `now + duration minutes`,
removes its id from the notified ledger so the catch-up loop can fire
again, and pops the queue. -/
def confirmSnooze (now : Int) (snoozeDuration : Int) (s : EngineState) : EngineState :=
  match s.dueQueue with
  | [] => s
  | b :: rest =>
    if snoozeDuration ≠ 0 then
      let updatedBooking := { b with date := now + snoozeDuration * 60000 }
      { s with
          bookings := updateBooking s.bookings updatedBooking
          notified := setDelete s.notified b.id
          dueQueue := rest }
    else s

/-- Source `deleteDueBooking`: delete the head booking and pop the
queue. -/
def deleteDueBooking (s : EngineState) : EngineState :=
  match s.dueQueue with
  | [] => s
  | b :: rest =>
    { s with bookings := deleteBooking s.bookings b.id, dueQueue := rest }

/-- Source `handleConvertToBill` (booking-list path): behind a
`window.confirm`; strips the id, sets `date = now`, adds the bill and
deletes the booking.  Returns the (bills, bookings) pair. -/
def handleConvertToBill (now : Int) (freshId : String) (booking : BillRec)
    (bills bookings : List BillRec) (confirmed : Bool) :
    List BillRec × List BillRec :=
  if confirmed then
    (addBill freshId { booking with date := now } bills, deleteBooking bookings booking.id)
  else (bills, bookings)

/-- The engine's user/timer-driven actions. -/
inductive EngineAction where
  | tickAct (now : Int)
  | confirm (now : Int) (freshId : String)
  | keep
  | snooze (now : Int) (duration : Int)
  | deleteAct
deriving DecidableEq, Repr, Inhabited

def EngineAction.isSnooze : EngineAction → Bool
  | .snooze _ _ => true
  | _ => false

/-- The step relation of the notification engine.  The spec's *Keep*
action is `processNextBooking` (pop the queue head only). -/
def engineStep : EngineAction → EngineState → EngineState
  | .tickAct now => tick now
  | .confirm now freshId => confirmDueBooking now freshId
  | .keep => processNextBooking
  | .snooze now d => confirmSnooze now d
  | .deleteAct => deleteDueBooking

def engineRun (acts : List EngineAction) (s : EngineState) : EngineState :=
  acts.foldl (fun s a => engineStep a s) s

/-- The ids currently in a due queue. -/
def queueIds (q : List BillRec) : List String :=
  q.map (·.id)

/-- Whether an action, taken in state `s`, removes `x` from the notified
ledger: only `confirmSnooze` deletes from the ledger, it deletes exactly
the queue head's id, and only when its `snoozeDuration` guard passes. -/
def removesId (a : EngineAction) (s : EngineState) (x : String) : Prop :=
  match a with
  | .snooze _ d => d ≠ 0 ∧ (s.dueQueue.head?).map (·.id) = some x
  | _ => False

instance (a : EngineAction) (s : EngineState) (x : String) :
    Decidable (removesId a s x) := by
  cases a <;> unfold removesId <;> infer_instance

/-- The claim's carve-out, per trace: along the run no snooze removes
this id from the ledger (snoozes of other bookings are allowed). -/
def traceKeepsId : List EngineAction → EngineState → String → Prop
  | [], _, _ => True
  | a :: acts, s, x => ¬ removesId a s x ∧ traceKeepsId acts (engineStep a s) x

instance instDecTraceKeepsId :
    (acts : List EngineAction) → (s : EngineState) → (x : String) →
      Decidable (traceKeepsId acts s x)
  | [], _, _ => isTrue trivial
  | a :: acts, s, x =>
    haveI := instDecTraceKeepsId acts (engineStep a s) x
    inferInstanceAs (Decidable (¬ removesId a s x ∧ traceKeepsId acts (engineStep a s) x))

/-! ## Revenue week window (`src/utils/dateUtils.ts` `isWithinThisWeek`,
Dashboard `revenueThisWeek`) -/

def msPerDay : Int := 86400000

/-- Days since the epoch of a timestamp (floor division); models the
`Date` day arithmetic of the source under local time = UTC. -/
def dayNumber (t : Int) : Int := t / msPerDay

/-- JS `Date.prototype.getDay` (0 = Sunday); day 0 of the epoch was a
Thursday. -/
def jsGetDay (t : Int) : Int := (dayNumber t + 4) % 7

/-- Source `const currentDay = today.getDay() || 7` — Sunday becomes 7
for a Monday-based week. -/
def currentDayMon (t : Int) : Int := if jsGetDay t = 0 then 7 else jsGetDay t

/-- Source `startOfWeek`: `today.getDate() - currentDay + 1` with the
hours zeroed, i.e. the midnight `currentDay - 1` days before today's
midnight. -/
def startOfWeek (today : Int) : Int :=
  (dayNumber today - currentDayMon today + 1) * msPerDay

/-- Source `endOfWeek = startOfWeek + 7 days`. -/
def endOfWeek (today : Int) : Int := startOfWeek today + 7 * msPerDay

/-- Source `isWithinThisWeek`: `date >= startOfWeek && date < endOfWeek`. -/
def isWithinThisWeek (date today : Int) : Bool :=
  decide (startOfWeek today ≤ date) && decide (date < endOfWeek today)

/-- Source `revenueThisWeek` from the Dashboard: filter by
`isWithinThisWeek` and sum the totals. -/
def revenueThisWeek (bills : List BillRec) (today : Int) : Int :=
  ((bills.filter (fun bill => isWithinThisWeek bill.date today)).map (·.total)).sum

/-! ## Backup import (`handleFileUpload` in the application shell) -/

/-- A JSON document key as the import validation sees it: missing,
present but not an array, or an array of records. -/
inductive JsonField (α : Type) where
  | absent
  | nonArray
  | arr (xs : List α)
deriving DecidableEq, Repr, Inhabited

def JsonField.isArr : JsonField α → Bool
  | .arr _ => true
  | _ => false

structure SettingsDoc where
  shopName : Option String
  billTheme : Option String
deriving DecidableEq, Repr, Inhabited

/-- The parsed backup document; `settings` subfields model the source's
truthiness checks (`none` = absent/falsy). -/
structure BackupDoc where
  bills : JsonField BillRec
  services : JsonField PredefinedService
  categories : JsonField ServiceCategory
  settings : Option SettingsDoc
deriving DecidableEq, Repr, Inhabited

/-- The store slices touched by the import. -/
structure StoreState where
  bills : List BillRec
  services : List PredefinedService
  categories : List ServiceCategory
  shopName : String
  billTheme : String
deriving DecidableEq, Repr, Inhabited

/-- What the user sees after an upload: success alert + reload, the
invalid-file alert, the read-error alert, or a declined confirm. -/
inductive UploadOutcome where
  | applied
  | invalidFile
  | readError
  | cancelled
deriving DecidableEq, Repr, Inhabited

/-- Source `handleFileUpload`.  `parsed = none` models a `JSON.parse`
throw.  The `restore*` collection functions are modelled from the spec
(§4.1: `restore(wholeArray)` replaces the entire collection) and the
settings setters from §6, since `useBills.ts` / `useServices.ts` /
`useShopSettings.ts` are not in the source tree; the validation and
branching mirror the source. -/
def handleFileUpload (parsed : Option BackupDoc) (confirmed : Bool) (st : StoreState) :
    StoreState × UploadOutcome :=
  match parsed with
  | none => (st, .readError)
  | some data =>
    match data.bills, data.services with
    | .arr billsArr, .arr servicesArr =>
      if confirmed then
        let st1 := { st with bills := billsArr, services := servicesArr }
        let st2 :=
          match data.categories with
          | .arr cats => { st1 with categories := cats }
          | _ => st1
        let st3 :=
          match data.settings with
          | some sdoc =>
            let sA :=
              match sdoc.shopName with
              | some n => { st2 with shopName := n }
              | none => st2
            match sdoc.billTheme with
            | some t => { sA with billTheme := t }
            | none => sA
          | none => st2
        (st3, .applied)
      else (st, .cancelled)
    | _, _ => (st, .invalidFile)

/-! ## Per-customer stats (`src/components/CustomerList.tsx`
`customerStats`) -/

structure VisitRecord where
  date : Int
  amount : Int
deriving DecidableEq, Repr, Inhabited

/-- The value type of the source's `statsMap`. -/
structure AggData where
  totalSpent : Int
  visits : List VisitRecord
deriving DecidableEq, Repr, Inhabited

/-- The merged per-customer view row. -/
structure CustomerStat where
  id : Option String
  name : String
  phone : Option String
  dob : Option String
  totalSpent : Int
  visitCount : Nat
  lastVisitDate : Option Int
  visitHistory : List VisitRecord
deriving DecidableEq, Repr, Inhabited

/-- JS `Map.get` on an insertion-ordered association list. -/
def mapGet (m : List (String × AggData)) (k : String) : Option AggData :=
  (m.find? (fun p => p.1 = k)).map (·.2)

/-- JS `Map.set`: update the value at an existing key in place (keeping
insertion order), else append. -/
def mapSet : List (String × AggData) → String → AggData → List (String × AggData)
  | [], k, v => [(k, v)]
  | p :: m, k, v => if p.1 = k then (k, v) :: m else p :: mapSet m k v

/-- JS `Map.keys()` in insertion order. -/
def mapKeys (m : List (String × AggData)) : List String := m.map (·.1)

/-- The normalization both grouping sides use:
`name.trim().toLowerCase()`. -/
def statsKey (s : String) : String := jsLower (jsTrim s)

def mkVisit (b : BillRec) : VisitRecord := ⟨b.date, b.total⟩

/-- One bill's contribution to the source's `statsMap`: skip blank
trimmed names, group under the lowercased trimmed name, accumulate the
total and append the visit record. -/
def aggStep (m : List (String × AggData)) (bill : BillRec) : List (String × AggData) :=
  let customerName := jsTrim bill.customerName
  if customerName = "" then m
  else
    let lowerName := jsLower customerName
    let existingStat := (mapGet m lowerName).getD ⟨0, []⟩
    mapSet m lowerName
      ⟨existingStat.totalSpent + bill.total, existingStat.visits ++ [mkVisit bill]⟩

/-- The `statsMap` built by step 1 of `customerStats`. -/
def aggregateBills (bills : List BillRec) : List (String × AggData) :=
  bills.foldl aggStep []

/-- Specification-side helper: the bills grouped under `key`. -/
def billsFor (bills : List BillRec) (key : String) : List BillRec :=
  bills.filter (fun b => decide (jsTrim b.customerName ≠ "" ∧ statsKey b.customerName = key))

def custKey (c : Customer) : String := statsKey c.name

/-- Sort visits newest-first: comparator `(a, b) => b.date - a.date`. -/
def sortVisitsDesc (visits : List VisitRecord) : List VisitRecord :=
  jsSort (fun a b => decide (b.date ≤ a.date)) visits

/-- A manual customer's merged row (step 2 of `customerStats`): keeps the
profile's id, name casing, phone and dob; zero-valued stats when the
profile has no bills. -/
def statFromCustomer (statsMap : List (String × AggData)) (cust : Customer) : CustomerStat :=
  let billStats := mapGet statsMap (custKey cust)
  let visits :=
    match billStats with
    | some a => sortVisitsDesc a.visits
    | none => []
  { id := some cust.id
    name := cust.name
    phone := cust.phone
    dob := cust.dob
    totalSpent := (billStats.map (·.totalSpent)).getD 0
    visitCount := visits.length
    lastVisitDate := (visits.head?).map (·.date)
    visitHistory := visits }

/-- A bill-only customer's row (step 3 of `customerStats`): no profile
id/phone/dob; the display name is the first bill whose raw lowercased
name equals the key (the source applies `toLowerCase` without `trim`
here), defaulting to the key itself. -/
def statFromBillsOnly (bills : List BillRec) (lowerName : String) (a : AggData) : CustomerStat :=
  let originalName :=
    ((bills.find? (fun b => jsLower b.customerName = lowerName)).map (·.customerName)).getD lowerName
  let visits := sortVisitsDesc a.visits
  { id := none
    name := originalName
    phone := none
    dob := none
    totalSpent := a.totalSpent
    visitCount := visits.length
    lastVisitDate := (visits.head?).map (·.date)
    visitHistory := visits }

/-- Source `customerStats`: aggregate bills by normalized name, merge
manual profiles (deleting their keys from the processed-name set), then
surface the remaining bill-only names, and sort by total spent
descending (comparator `(a, b) => b.totalSpent - a.totalSpent`). -/
def customerStats (bills : List BillRec) (customers : List Customer) : List CustomerStat :=
  let statsMap := aggregateBills bills
  let mergedFromCustomers := customers.map (statFromCustomer statsMap)
  let remainingNames :=
    (mapKeys statsMap).filter (fun k => ¬ customers.any (fun c => custKey c = k))
  let mergedFromBills :=
    remainingNames.filterMap (fun k => (mapGet statsMap k).map (statFromBillsOnly bills k))
  jsSort (fun a b => decide (b.totalSpent ≤ a.totalSpent))
    (mergedFromCustomers ++ mergedFromBills)

/-- Proof-side helper: extend an optional aggregate with a run of bills,
mirroring `aggStep`'s accumulation at one key. -/
def extendO : Option AggData → List BillRec → Option AggData
  | o, [] => o
  | o, b :: bs =>
    extendO (some ⟨(o.getD ⟨0, []⟩).totalSpent + b.total,
      (o.getD ⟨0, []⟩).visits ++ [mkVisit b]⟩) bs

/-! ## Concrete records for witnesses -/

/-- A booking 23 hours overdue (relative to `now = 0`). -/
def bkA : BillRec :=
  { id := "bkA", customerName := "A", date := -82800000, items := [], total := 0,
    discountValue := 0, discountType := .amount, note := "", createdAt := some (-172800000) }

/-- A booking 25 hours overdue (relative to `now = 0`). -/
def bkB : BillRec :=
  { bkA with id := "bkB", date := -90000000 }

def snoozeSt : EngineState :=
  { bills := [], bookings := [bkA], notified := ["bkA"], dueQueue := [bkA] }

/-- A due booking (relative to `now = 0`) that is not yet notified. -/
def bkC : BillRec :=
  { bkA with id := "bkC", date := -1000 }

/-- A state where `bkA` is already notified while `bkC` sits at the queue
head, about to be snoozed. -/
def snoozeOtherSt : EngineState :=
  { bills := [], bookings := [bkA, bkC], notified := ["bkA"], dueQueue := [bkC] }

def svcA : PredefinedService :=
  { id := "svcA", name := "Service A", price := 100000, priceType := .fixed,
    variants := none, categoryId := none, allowQuantity := true }

def blankItem : ServiceItem :=
  { id := "temp-1", serviceId := "", name := "", price := 0, quantity := 1,
    variantName := none }

/-- The spec's concrete scenario: pick Service A in the single blank row
and set its quantity to 2. -/
def scenarioItems : List ServiceItem :=
  handleQuantityChange [svcA] (handleItemChange [svcA] [blankItem] 0 "svcA") 0 2

def savedScenarioRec : BillRec :=
  match handleSubmit 0 false none "A" 0 scenarioItems 10 .percent "" with
  | .saved rec => rec
  | _ => default

def billAnna1 : BillRec :=
  { id := "bA1", customerName := "Anna ", date := 1000, items := [], total := 100000,
    discountValue := 0, discountType := .amount, note := "", createdAt := none }

def billAnna2 : BillRec :=
  { billAnna1 with id := "bA2", customerName := "anna", date := 2000, total := 200000 }

def custMai : Customer :=
  { id := "cust-1", name := "Mai", phone := none, dob := none }

def sampleStore : StoreState :=
  { bills := [], services := [], categories := [], shopName := "Nail Spa",
    billTheme := "default" }

def sampleDoc : BackupDoc :=
  { bills := .arr [billAnna1], services := .arr [svcA], categories := .absent,
    settings := none }

def badDoc : BackupDoc :=
  { bills := .absent, services := .arr [], categories := .absent, settings := none }

/-! ## Helper lemmas -/

theorem jsInsert_perm (le : α → α → Bool) (a : α) (l : List α) :
    (jsInsert le a l).Perm (a :: l) := by
  induction l with
  | nil => simp [jsInsert]
  | cons b l ih =>
    simp only [jsInsert]
    split
    · exact List.Perm.refl _
    · exact (ih.cons b).trans (List.Perm.swap a b l)

theorem jsSort_perm (le : α → α → Bool) (l : List α) : (jsSort le l).Perm l := by
  induction l with
  | nil => simp [jsSort]
  | cons a l ih => exact (jsInsert_perm le a (jsSort le l)).trans (ih.cons a)

theorem jsInsert_pairwise (le : α → α → Bool)
    (htot : ∀ a b, le a b = true ∨ le b a = true)
    (htrans : ∀ a b c, le a b = true → le b c = true → le a c = true)
    (a : α) (l : List α) (h : l.Pairwise (le · · = true)) :
    (jsInsert le a l).Pairwise (le · · = true) := by
  induction l with
  | nil => simp [jsInsert]
  | cons b l ih =>
    rw [List.pairwise_cons] at h
    simp only [jsInsert]
    split
    · rename_i hab
      refine List.pairwise_cons.2 ⟨?_, List.pairwise_cons.2 h⟩
      intro x hx
      rcases List.mem_cons.1 hx with hx | hx
      · subst hx; exact hab
      · exact htrans a b x hab (h.1 x hx)
    · rename_i hab
      have hba : le b a = true := by
        rcases htot a b with h' | h'
        · exact absurd h' hab
        · exact h'
      refine List.pairwise_cons.2 ⟨?_, ih h.2⟩
      intro x hx
      have hx' := (jsInsert_perm le a l).mem_iff.1 hx
      rcases List.mem_cons.1 hx' with hx2 | hx2
      · subst hx2; exact hba
      · exact h.1 x hx2

theorem jsSort_pairwise (le : α → α → Bool)
    (htot : ∀ a b, le a b = true ∨ le b a = true)
    (htrans : ∀ a b c, le a b = true → le b c = true → le a c = true)
    (l : List α) : (jsSort le l).Pairwise (le · · = true) := by
  induction l with
  | nil => simp [jsSort]
  | cons a l ih => exact jsInsert_pairwise le htot htrans a (jsSort le l) ih

theorem mem_queueIds {q : List BillRec} {x : String} :
    x ∈ queueIds q ↔ ∃ b ∈ q, b.id = x := by
  simp [queueIds, List.mem_map]

theorem setAdd_mem (s : List String) (x y : String) :
    y ∈ setAdd s x ↔ y ∈ s ∨ y = x := by
  unfold setAdd
  split
  · rename_i hx
    constructor
    · exact Or.inl
    · rintro (h | rfl)
      · exact h
      · exact hx
  · simp [List.mem_append]

theorem setDelete_not_mem (s : List String) (x : String) :
    x ∉ setDelete s x := by
  simp [setDelete, List.mem_filter]

theorem setDelete_mem (s : List String) (x y : String) :
    y ∈ setDelete s x ↔ y ∈ s ∧ y ≠ x := by
  simp [setDelete, List.mem_filter]

/-- Queue membership after a fold of `checkStep`s, with a general
accumulator. -/
theorem checkFold_queue_mem (now : Int) (notified0 : List String) (x : String) :
    ∀ (bookings : List BillRec) (acc : List BillRec × List String),
      x ∈ queueIds (bookings.foldl (checkStep now notified0) acc).1 ↔
        x ∈ queueIds acc.1 ∨ ∃ b ∈ bookings, b.id = x ∧ dueCond now notified0 b := by
  intro bookings
  induction bookings with
  | nil => simp
  | cons b rest ih =>
    intro acc
    rw [List.foldl_cons, ih]
    by_cases hc : dueCond now notified0 b
    · have hq : x ∈ queueIds (checkStep now notified0 acc b).1 ↔
          x ∈ queueIds acc.1 ∨ b.id = x := by
        unfold checkStep
        rw [if_pos hc]
        dsimp only
        split
        · rename_i hAny
          rcases List.any_eq_true.1 hAny with ⟨q, hqmem, hqid⟩
          have hb : b.id ∈ queueIds acc.1 :=
            mem_queueIds.2 ⟨q, hqmem, of_decide_eq_true hqid⟩
          constructor
          · exact Or.inl
          · rintro (h | rfl)
            · exact h
            · exact hb
        · simp only [queueIds, List.map_append, List.mem_append, List.map_cons,
            List.map_nil, List.mem_singleton]
          constructor
          · rintro (h | rfl)
            · exact Or.inl h
            · exact Or.inr rfl
          · rintro (h | rfl)
            · exact Or.inl h
            · exact Or.inr rfl
      rw [hq]
      constructor
      · rintro ((h | rfl) | ⟨b', hb', hid, hcond⟩)
        · exact Or.inl h
        · exact Or.inr ⟨b, List.mem_cons_self b rest, rfl, hc⟩
        · exact Or.inr ⟨b', List.mem_cons_of_mem b hb', hid, hcond⟩
      · rintro (h | ⟨b', hb', hid, hcond⟩)
        · exact Or.inl (Or.inl h)
        · rcases List.mem_cons.1 hb' with rfl | hb2
          · exact Or.inl (Or.inr hid)
          · exact Or.inr ⟨b', hb2, hid, hcond⟩
    · have hstep : checkStep now notified0 acc b = acc := by
        unfold checkStep; rw [if_neg hc]
      rw [hstep]
      constructor
      · rintro (h | ⟨b', hb', hid, hcond⟩)
        · exact Or.inl h
        · exact Or.inr ⟨b', List.mem_cons_of_mem b hb', hid, hcond⟩
      · rintro (h | ⟨b', hb', hid, hcond⟩)
        · exact Or.inl h
        · rcases List.mem_cons.1 hb' with rfl | hb2
          · exact absurd hcond hc
          · exact Or.inr ⟨b', hb2, hid, hcond⟩

/-- Notified-ledger membership after a fold of `checkStep`s. -/
theorem checkFold_notified_mem (now : Int) (notified0 : List String) (x : String) :
    ∀ (bookings : List BillRec) (acc : List BillRec × List String),
      x ∈ (bookings.foldl (checkStep now notified0) acc).2 ↔
        x ∈ acc.2 ∨ ∃ b ∈ bookings, b.id = x ∧ dueCond now notified0 b := by
  intro bookings
  induction bookings with
  | nil => simp
  | cons b rest ih =>
    intro acc
    rw [List.foldl_cons, ih]
    by_cases hc : dueCond now notified0 b
    · have hn : x ∈ (checkStep now notified0 acc b).2 ↔ x ∈ acc.2 ∨ b.id = x := by
        unfold checkStep
        rw [if_pos hc]
        dsimp only
        rw [setAdd_mem]
        constructor
        · rintro (h | rfl)
          · exact Or.inl h
          · exact Or.inr rfl
        · rintro (h | rfl)
          · exact Or.inl h
          · exact Or.inr rfl
      rw [hn]
      constructor
      · rintro ((h | rfl) | ⟨b', hb', hid, hcond⟩)
        · exact Or.inl h
        · exact Or.inr ⟨b, List.mem_cons_self b rest, rfl, hc⟩
        · exact Or.inr ⟨b', List.mem_cons_of_mem b hb', hid, hcond⟩
      · rintro (h | ⟨b', hb', hid, hcond⟩)
        · exact Or.inl (Or.inl h)
        · rcases List.mem_cons.1 hb' with rfl | hb2
          · exact Or.inl (Or.inr hid)
          · exact Or.inr ⟨b', hb2, hid, hcond⟩
    · have hstep : checkStep now notified0 acc b = acc := by
        unfold checkStep; rw [if_neg hc]
      rw [hstep]
      constructor
      · rintro (h | ⟨b', hb', hid, hcond⟩)
        · exact Or.inl h
        · exact Or.inr ⟨b', List.mem_cons_of_mem b hb', hid, hcond⟩
      · rintro (h | ⟨b', hb', hid, hcond⟩)
        · exact Or.inl h
        · rcases List.mem_cons.1 hb' with rfl | hb2
          · exact absurd hcond hc
          · exact Or.inr ⟨b', hb2, hid, hcond⟩

/-- A fold of `checkStep`s keeps the due-queue ids duplicate-free. -/
theorem checkFold_queue_nodup (now : Int) (notified0 : List String) :
    ∀ (bookings : List BillRec) (acc : List BillRec × List String),
      (queueIds acc.1).Nodup →
      (queueIds (bookings.foldl (checkStep now notified0) acc).1).Nodup := by
  intro bookings
  induction bookings with
  | nil => intro acc h; simpa using h
  | cons b rest ih =>
    intro acc h
    rw [List.foldl_cons]
    refine ih _ ?_
    unfold checkStep
    split
    · dsimp only
      split
      · exact h
      · rename_i hAny
        have hb : b.id ∉ queueIds acc.1 := by
          intro hmem
          rcases mem_queueIds.1 hmem with ⟨q, hqmem, hqid⟩
          exact hAny (List.any_eq_true.2 ⟨q, hqmem, decide_eq_true hqid⟩)
        simp only [queueIds, List.map_append, List.map_cons, List.map_nil]
        refine List.Nodup.append h (List.nodup_singleton _) ?_
        intro a ha hb1
        rw [List.mem_singleton] at hb1
        exact hb (hb1 ▸ ha)
    · exact h

/-- Replacing a record by id and then searching for that id finds the
replacement, provided some record with the id was present. -/
theorem find_updateBooking (l : List BillRec) (u : BillRec)
    (h : ∃ x ∈ l, x.id = u.id) :
    (updateBooking l u).find? (fun x => x.id = u.id) = some u := by
  induction l with
  | nil =>
    rcases h with ⟨x, hx, _⟩
    cases hx
  | cons a l ih =>
    unfold updateBooking at ih ⊢
    simp only [List.map_cons]
    by_cases ha : a.id = u.id
    · rw [if_pos ha]
      simp [List.find?]
    · rw [if_neg ha]
      rw [List.find?_cons_of_neg _ (by simpa using ha)]
      apply ih
      rcases h with ⟨x, hx, hxid⟩
      rcases List.mem_cons.1 hx with rfl | hx2
      · exact absurd hxid ha
      · exact ⟨x, hx2, hxid⟩

/-! ## Claim theorems -/

/-- C1: on every poll tick, for every booking in the collection, the
booking's id enters `dueQueue` and `notifiedIds` exactly when
`booking.date ≤ now`, `booking.date > now − 24h` and the id is not
already notified; the queue append is deduplicated by id, so queue ids
stay duplicate-free. -/
theorem claim_c1_poll_tick_window (now : Int) (bookings : List BillRec)
    (notified : List String) (queue : List BillRec)
    (hq : (queueIds queue).Nodup) :
    (queueIds (checkBookings now bookings notified queue).1).Nodup ∧
    (∀ x, x ∈ queueIds (checkBookings now bookings notified queue).1 ↔
      x ∈ queueIds queue ∨
        ∃ b ∈ bookings, b.id = x ∧ b.date ≤ now ∧
          now - 24 * 60 * 60 * 1000 < b.date ∧ b.id ∉ notified) ∧
    (∀ x, x ∈ (checkBookings now bookings notified queue).2 ↔
      x ∈ notified ∨
        ∃ b ∈ bookings, b.id = x ∧ b.date ≤ now ∧
          now - 24 * 60 * 60 * 1000 < b.date ∧ b.id ∉ notified) := by
  refine ⟨checkFold_queue_nodup now notified bookings (queue, notified) hq,
    fun x => ?_, fun x => ?_⟩
  · have h := checkFold_queue_mem now notified x bookings (queue, notified)
    unfold checkBookings
    rw [h]
    simp [dueCond]
  · have h := checkFold_notified_mem now notified x bookings (queue, notified)
    unfold checkBookings
    rw [h]
    simp [dueCond]

theorem claim_c1_witness :
    (queueIds []).Nodup ∧
    ("bkA" ∈ queueIds (checkBookings 0 [bkA, bkB] [] []).1) ∧
    ("bkB" ∉ queueIds (checkBookings 0 [bkA, bkB] [] []).1) ∧
    ("bkA" ∈ (checkBookings 0 [bkA, bkB] [] []).2) := by
  have h := claim_c1_poll_tick_window 0 [bkA, bkB] [] [] (by simp [queueIds])
  refine ⟨by simp [queueIds], ?_, ?_, ?_⟩
  · exact (h.2.1 "bkA").2 (by decide)
  · intro hmem
    exact absurd ((h.2.1 "bkB").1 hmem) (by decide)
  · exact (h.2.2 "bkA").2 (by decide)

/-- C2: snoozing the due booking at the queue head by `d` minutes
reschedules it to `now + d` minutes, removes its id from the notified
ledger, pops the queue head, and any poll tick at or after the new time
(within the 24h catch-up window) re-surfaces the booking's id into the
due queue. -/
theorem claim_c2_snooze_resurfaces (now d : Int) (s : EngineState)
    (b : BillRec) (rest : List BillRec)
    (hqueue : s.dueQueue = b :: rest) (hd : d ≠ 0)
    (hmem : ∃ x ∈ s.bookings, x.id = b.id) :
    ((confirmSnooze now d s).bookings.find? (fun x => x.id = b.id) =
      some { b with date := now + d * 60000 }) ∧
    b.id ∉ (confirmSnooze now d s).notified ∧
    (confirmSnooze now d s).dueQueue = rest ∧
    (∀ now2, now + d * 60000 ≤ now2 → now2 - 24 * 60 * 60 * 1000 < now + d * 60000 →
      b.id ∈ queueIds (tick now2 (confirmSnooze now d s)).dueQueue) := by
  have hs : confirmSnooze now d s =
      { s with
          bookings := updateBooking s.bookings { b with date := now + d * 60000 }
          notified := setDelete s.notified b.id
          dueQueue := rest } := by
    unfold confirmSnooze
    rw [hqueue]
    simp [hd]
  rw [hs]
  have hfind : (updateBooking s.bookings { b with date := now + d * 60000 }).find?
      (fun x => x.id = b.id) = some { b with date := now + d * 60000 } :=
    find_updateBooking s.bookings { b with date := now + d * 60000 } hmem
  refine ⟨hfind, setDelete_not_mem s.notified b.id, rfl, ?_⟩
  intro now2 h1 h2
  have hmem2 : ({ b with date := now + d * 60000 } : BillRec) ∈
      updateBooking s.bookings { b with date := now + d * 60000 } :=
    List.mem_of_find?_eq_some hfind
  unfold tick
  dsimp only
  unfold checkBookings
  refine (checkFold_queue_mem now2 (setDelete s.notified b.id) b.id _ _).2 (Or.inr ?_)
  refine ⟨{ b with date := now + d * 60000 }, hmem2, rfl, h1, h2, ?_⟩
  exact setDelete_not_mem s.notified b.id

theorem claim_c2_witness :
    ((confirmSnooze 0 10 snoozeSt).bookings.find? (fun x => x.id = bkA.id) =
      some { bkA with date := 600000 }) ∧
    bkA.id ∉ (confirmSnooze 0 10 snoozeSt).notified ∧
    (confirmSnooze 0 10 snoozeSt).dueQueue = [] ∧
    bkA.id ∈ queueIds (tick 600000 (confirmSnooze 0 10 snoozeSt)).dueQueue := by
  have h := claim_c2_snooze_resurfaces 0 10 snoozeSt bkA [] rfl (by decide)
    ⟨bkA, by simp [snoozeSt], rfl⟩
  exact ⟨h.1, h.2.1, h.2.2.1, h.2.2.2 600000 (by decide) (by decide)⟩

/-- A single engine step that does not remove `x` from the ledger (any
non-snooze action, and any snooze whose queue head is another booking or
whose duration guard fails) keeps `x` notified and never adds it to the
due queue. -/
theorem engineStep_no_renotify (a : EngineAction) (s : EngineState) (x : String)
    (ha : ¬ removesId a s x) (hx : x ∈ s.notified) :
    x ∈ (engineStep a s).notified ∧
      (x ∈ queueIds (engineStep a s).dueQueue → x ∈ queueIds s.dueQueue) := by
  cases a with
  | tickAct now =>
    show x ∈ (tick now s).notified ∧ _
    unfold tick
    dsimp only
    unfold checkBookings
    constructor
    · exact (checkFold_notified_mem now s.notified x s.bookings (s.dueQueue, s.notified)).2
        (Or.inl hx)
    · intro hmem
      rcases (checkFold_queue_mem now s.notified x s.bookings
          (s.dueQueue, s.notified)).1 hmem with h | ⟨b, _, hid, hcond⟩
      · exact h
      · unfold dueCond at hcond
        rw [hid] at hcond
        exact absurd hx hcond.2.2
  | confirm now freshId =>
    cases hq : s.dueQueue with
    | nil =>
      have hstep : engineStep (.confirm now freshId) s = s := by
        show confirmDueBooking now freshId s = s
        unfold confirmDueBooking
        rw [hq]
      rw [hstep, hq]
      exact ⟨hx, fun h => h⟩
    | cons b rest =>
      have hstep : (engineStep (.confirm now freshId) s).notified = s.notified ∧
          (engineStep (.confirm now freshId) s).dueQueue = rest := by
        show (confirmDueBooking now freshId s).notified = s.notified ∧
          (confirmDueBooking now freshId s).dueQueue = rest
        unfold confirmDueBooking
        rw [hq]
        exact ⟨rfl, rfl⟩
      rw [hstep.1, hstep.2]
      refine ⟨hx, ?_⟩
      intro hmem
      rcases mem_queueIds.1 hmem with ⟨b', hb', hid⟩
      exact mem_queueIds.2 ⟨b', List.mem_cons_of_mem b hb', hid⟩
  | keep =>
    refine ⟨hx, ?_⟩
    show x ∈ queueIds (s.dueQueue.drop 1) → x ∈ queueIds s.dueQueue
    intro hmem
    rcases mem_queueIds.1 hmem with ⟨b', hb', hid⟩
    exact mem_queueIds.2 ⟨b', List.mem_of_mem_drop hb', hid⟩
  | snooze now dur =>
    cases hq : s.dueQueue with
    | nil =>
      have hstep : engineStep (.snooze now dur) s = s := by
        show confirmSnooze now dur s = s
        unfold confirmSnooze
        rw [hq]
      rw [hstep, hq]
      exact ⟨hx, fun h => h⟩
    | cons b rest =>
      by_cases hd : dur ≠ 0
      · have hbx : b.id ≠ x := by
          intro he
          refine ha ⟨hd, ?_⟩
          rw [hq]
          simp [he]
        have hstep : (engineStep (.snooze now dur) s).notified = setDelete s.notified b.id ∧
            (engineStep (.snooze now dur) s).dueQueue = rest := by
          show (confirmSnooze now dur s).notified = setDelete s.notified b.id ∧
            (confirmSnooze now dur s).dueQueue = rest
          unfold confirmSnooze
          rw [hq]
          simp [hd]
        rw [hstep.1, hstep.2]
        constructor
        · exact (setDelete_mem _ _ _).2 ⟨hx, fun he => hbx he.symm⟩
        · intro hmem
          rcases mem_queueIds.1 hmem with ⟨b', hb', hid⟩
          exact mem_queueIds.2 ⟨b', List.mem_cons_of_mem b hb', hid⟩
      · have hstep : engineStep (.snooze now dur) s = s := by
          show confirmSnooze now dur s = s
          unfold confirmSnooze
          rw [hq]
          simp only [ne_eq, not_not] at hd
          simp [hd]
        rw [hstep, hq]
        exact ⟨hx, fun h => h⟩
  | deleteAct =>
    cases hq : s.dueQueue with
    | nil =>
      have hstep : engineStep .deleteAct s = s := by
        show deleteDueBooking s = s
        unfold deleteDueBooking
        rw [hq]
      rw [hstep, hq]
      exact ⟨hx, fun h => h⟩
    | cons b rest =>
      have hstep : (engineStep .deleteAct s).notified = s.notified ∧
          (engineStep .deleteAct s).dueQueue = rest := by
        show (deleteDueBooking s).notified = s.notified ∧
          (deleteDueBooking s).dueQueue = rest
        unfold deleteDueBooking
        rw [hq]
        exact ⟨rfl, rfl⟩
      rw [hstep.1, hstep.2]
      refine ⟨hx, ?_⟩
      intro hmem
      rcases mem_queueIds.1 hmem with ⟨b', hb', hid⟩
      exact mem_queueIds.2 ⟨b', List.mem_cons_of_mem b hb', hid⟩

/-- C3: along any run of engine actions (poll ticks plus
confirm/keep/snooze/delete) in which no snooze removes this booking's id
from the ledger — snoozes of other bookings are allowed, since a snooze
deletes exactly the queue head's id — an id already in `notifiedIds`
stays in `notifiedIds` and is never newly added to `dueQueue`; moreover
the Keep action only pops the queue head, leaving the bookings, bills
and notified ledger untouched. -/
theorem claim_c3_no_renotify_unless_snoozed :
    (∀ s : EngineState, engineStep .keep s = { s with dueQueue := s.dueQueue.drop 1 }) ∧
    (∀ (acts : List EngineAction) (s : EngineState) (x : String),
      traceKeepsId acts s x → x ∈ s.notified →
      x ∈ (engineRun acts s).notified ∧
        (x ∈ queueIds (engineRun acts s).dueQueue → x ∈ queueIds s.dueQueue)) := by
  refine ⟨fun s => rfl, ?_⟩
  intro acts
  induction acts with
  | nil => exact fun s x _ hx => ⟨hx, fun h => h⟩
  | cons a acts ih =>
    intro s x htrace hx
    have h1 := engineStep_no_renotify a s x htrace.1 hx
    have h2 := ih (engineStep a s) x htrace.2 h1.1
    exact ⟨h2.1, fun hm => h1.2 (h2.2 hm)⟩

theorem claim_c3_witness :
    engineStep .keep snoozeSt = { snoozeSt with dueQueue := [] } ∧
    traceKeepsId [.snooze 0 5, .tickAct 0, .keep, .confirm 0 "fresh", .deleteAct]
      snoozeOtherSt "bkA" ∧
    "bkA" ∈ (engineRun [.snooze 0 5, .tickAct 0, .keep, .confirm 0 "fresh", .deleteAct]
      snoozeOtherSt).notified ∧
    "bkA" ∉ queueIds ((engineRun [.snooze 0 5, .tickAct 0, .keep, .confirm 0 "fresh", .deleteAct]
      snoozeOtherSt).dueQueue) := by
  have hmain := claim_c3_no_renotify_unless_snoozed
  have h := hmain.2 [.snooze 0 5, .tickAct 0, .keep, .confirm 0 "fresh", .deleteAct]
    snoozeOtherSt "bkA" (by decide) (by decide)
  refine ⟨hmain.1 snoozeSt, by decide, h.1, ?_⟩
  intro hmem
  exact absurd (h.2 hmem) (by decide)

/-- C4: confirming a due booking (popup path) prepends a new bill equal
to the booking with only the id replaced (by the generated one) and the
date replaced by the current time, deletes the booking from the bookings
collection, pops the queue head and leaves the notified ledger unchanged;
the booking-list convert action does the same to the two collections when
confirmed, and nothing when declined. -/
theorem claim_c4_confirm_creates_bill (now : Int) (freshId : String) (s : EngineState)
    (b : BillRec) (rest : List BillRec) (hqueue : s.dueQueue = b :: rest)
    (booking : BillRec) (bills bookings : List BillRec) :
    ((confirmDueBooking now freshId s).bills =
      { b with id := freshId, date := now } :: s.bills) ∧
    ((confirmDueBooking now freshId s).bookings =
      s.bookings.filter (fun x => x.id ≠ b.id)) ∧
    ((confirmDueBooking now freshId s).dueQueue = rest) ∧
    ((confirmDueBooking now freshId s).notified = s.notified) ∧
    (handleConvertToBill now freshId booking bills bookings true =
      ({ booking with id := freshId, date := now } :: bills,
        bookings.filter (fun x => x.id ≠ booking.id))) ∧
    (handleConvertToBill now freshId booking bills bookings false = (bills, bookings)) := by
  have hs : confirmDueBooking now freshId s =
      { s with
          bills := addBill freshId { b with date := now } s.bills
          bookings := deleteBooking s.bookings b.id
          dueQueue := rest } := by
    unfold confirmDueBooking
    rw [hqueue]
  rw [hs]
  exact ⟨rfl, rfl, rfl, rfl, rfl, rfl⟩

theorem claim_c4_witness :
    (confirmDueBooking 0 "fresh" snoozeSt).bills = [{ bkA with id := "fresh", date := 0 }] ∧
    (confirmDueBooking 0 "fresh" snoozeSt).bookings = [] ∧
    (confirmDueBooking 0 "fresh" snoozeSt).dueQueue = [] ∧
    (handleConvertToBill 5 "f2" bkA [] [bkA] true =
      ([{ bkA with id := "f2", date := 5 }], [])) := by
  have h := claim_c4_confirm_creates_bill 0 "fresh" snoozeSt bkA [] rfl bkA [] [bkA]
  refine ⟨h.1.trans (by decide), h.2.1.trans (by decide), h.2.2.1, ?_⟩
  have h2 := (claim_c4_confirm_creates_bill 5 "f2" snoozeSt bkA [] rfl bkA [] [bkA]).2.2.2.2.1
  exact h2.trans (by decide)

/-- C10 (implicit): converting a booking strips only the id, so the
created bill keeps the booking's `createdAt` (along with items, total,
discount fields and note), whereas a bill saved from the editor in
non-booking mode carries `createdAt = none`. -/
theorem claim_c10_createdAt_survives_conversion :
    (∀ (now : Int) (freshId : String) (s : EngineState) (b : BillRec) (rest : List BillRec),
      s.dueQueue = b :: rest →
      ∃ nb, (confirmDueBooking now freshId s).bills = nb :: s.bills ∧
        nb.createdAt = b.createdAt ∧ nb.customerName = b.customerName ∧
        nb.items = b.items ∧ nb.total = b.total ∧
        nb.discountValue = b.discountValue ∧ nb.discountType = b.discountType ∧
        nb.note = b.note ∧ nb.date = now ∧ nb.id = freshId) ∧
    (∀ (now : Int) (freshId : String) (booking : BillRec) (bills bookings : List BillRec),
      ∃ nb, (handleConvertToBill now freshId booking bills bookings true).1 = nb :: bills ∧
        nb.createdAt = booking.createdAt ∧ nb.customerName = booking.customerName ∧
        nb.items = booking.items ∧ nb.total = booking.total ∧
        nb.discountValue = booking.discountValue ∧ nb.discountType = booking.discountType ∧
        nb.note = booking.note ∧ nb.date = now ∧ nb.id = freshId) ∧
    (∀ (now : Int) (orig : Option BillRec) (name : String) (finalDate : Int)
        (items : List ServiceItem) (dv : Int) (dt : DiscountType) (note : String)
        (rec : BillRec),
      handleSubmit now false orig name finalDate items dv dt note = .saved rec →
      rec.createdAt = none) := by
  refine ⟨?_, ?_, ?_⟩
  · intro now freshId s b rest hqueue
    have hs2 : confirmDueBooking now freshId s =
        { s with
            bills := addBill freshId { b with date := now } s.bills
            bookings := deleteBooking s.bookings b.id
            dueQueue := rest } := by
      unfold confirmDueBooking
      rw [hqueue]
    refine ⟨{ b with id := freshId, date := now }, ?_, rfl, rfl, rfl, rfl, rfl, rfl, rfl, rfl, rfl⟩
    rw [hs2]
    rfl
  · intro now freshId booking bills bookings
    exact ⟨{ booking with id := freshId, date := now }, rfl, rfl, rfl, rfl, rfl, rfl, rfl,
      rfl, rfl, rfl⟩
  · intro now orig name finalDate items dv dt note rec h
    simp only [handleSubmit] at h
    by_cases h1 : jsTrim name = ""
    · rw [if_pos h1] at h
      cases h
    · rw [if_neg h1] at h
      by_cases h2 : items.filter (fun item => item.serviceId ≠ "") = []
      · rw [if_pos h2] at h
        cases h
      · rw [if_neg h2] at h
        rw [if_neg (by simp)] at h
        cases h
        simp

theorem claim_c10_witness :
    (∃ nb, (confirmDueBooking 0 "fresh" snoozeSt).bills = nb :: snoozeSt.bills ∧
      nb.createdAt = bkA.createdAt) ∧
    savedScenarioRec.createdAt = none := by
  have h := claim_c10_createdAt_survives_conversion
  obtain ⟨nb, heq, hcr, -⟩ := h.1 0 "fresh" snoozeSt bkA [] rfl
  exact ⟨⟨nb, heq, hcr⟩, h.2.2 0 none "A" 0 scenarioItems 10 .percent "" savedScenarioRec (by decide)⟩

/-- C5: every record saved by the editor satisfies
`total = max(0, sum(item.price) − discountAmount)`; the discount is the
raw value for `amount` and the half-up rounding of `subtotal·dv/100` for
`percent` (characterized: `100·d` is within 50 of `subtotal·dv`, ties
rounding up); and the spec's concrete scenario — two of a fixed-price
100 000 service — yields `item.price = 200000`, subtotal 200000, total
200000 with no discount, and discount 20000 / total 180000 at 10%. -/
theorem claim_c5_total_formula :
    (∀ (now : Int) (isBooking : Bool) (orig : Option BillRec) (name : String)
        (finalDate : Int) (items : List ServiceItem) (dv : Int) (dt : DiscountType)
        (note : String) (rec : BillRec),
      handleSubmit now isBooking orig name finalDate items dv dt note = .saved rec →
      rec.total = max 0 (calculateSubtotal rec.items -
        calculateDiscountAmount rec.items rec.discountValue rec.discountType)) ∧
    (∀ (items : List ServiceItem) (dv : Int),
      calculateDiscountAmount items dv .amount = dv) ∧
    (∀ (items : List ServiceItem) (dv : Int),
      100 * calculateDiscountAmount items dv .percent ≤ calculateSubtotal items * dv + 50 ∧
      calculateSubtotal items * dv - 50 < 100 * calculateDiscountAmount items dv .percent) ∧
    (scenarioItems.map (·.price) = [200000] ∧
      calculateSubtotal scenarioItems = 200000 ∧
      calculateTotal scenarioItems 0 .amount = 200000 ∧
      calculateDiscountAmount scenarioItems 10 .percent = 20000 ∧
      calculateTotal scenarioItems 10 .percent = 180000) := by
  refine ⟨?_, fun items dv => rfl, ?_, by decide⟩
  · intro now isBooking orig name finalDate items dv dt note rec h
    simp only [handleSubmit] at h
    by_cases h1 : jsTrim name = ""
    · rw [if_pos h1] at h
      cases h
    · rw [if_neg h1] at h
      by_cases h2 : items.filter (fun item => item.serviceId ≠ "") = []
      · rw [if_pos h2] at h
        cases h
      · rw [if_neg h2] at h
        by_cases h3 : isBooking = true ∧ finalDate < now ∧ 60000 < now - finalDate
        · rw [if_pos h3] at h
          cases h
        · rw [if_neg h3] at h
          cases h
          rfl
  · intro items dv
    have hd : calculateDiscountAmount items dv .percent =
        (2 * (calculateSubtotal items * dv) + 100) / 200 := by
      show (2 * calculateSubtotal items * dv + 100) / 200 = _
      rw [mul_assoc]
    rw [hd]
    omega

theorem claim_c5_witness :
    handleSubmit 0 false none "A" 0 scenarioItems 10 .percent "" = .saved savedScenarioRec ∧
    savedScenarioRec.total = max 0 (calculateSubtotal savedScenarioRec.items -
      calculateDiscountAmount savedScenarioRec.items savedScenarioRec.discountValue
        savedScenarioRec.discountType) ∧
    savedScenarioRec.total = 180000 := by
  have h := claim_c5_total_formula
  refine ⟨by decide, ?_, by decide⟩
  exact h.1 0 false none "A" 0 scenarioItems 10 .percent "" savedScenarioRec (by decide)

/-- C9: the editor submit handler saves a record (calls `onSave`) exactly
when the trimmed customer name is non-empty, some item has a selected
service, and — when editing a booking — the chosen time is not in the
past by more than 60 seconds; otherwise an alert is shown and nothing is
saved, so no collection state changes. -/
theorem claim_c9_submit_validation (now : Int) (isBooking : Bool) (orig : Option BillRec)
    (name : String) (finalDate : Int) (items : List ServiceItem) (dv : Int)
    (dt : DiscountType) (note : String) :
    (∃ rec, handleSubmit now isBooking orig name finalDate items dv dt note = .saved rec) ↔
      (jsTrim name ≠ "" ∧ items.filter (fun item => item.serviceId ≠ "") ≠ [] ∧
        (isBooking = true → now - finalDate ≤ 60000)) := by
  simp only [handleSubmit]
  by_cases h1 : jsTrim name = ""
  · rw [if_pos h1]
    constructor
    · rintro ⟨rec, hcontra⟩
      cases hcontra
    · rintro ⟨hne, -, -⟩
      exact absurd h1 hne
  · rw [if_neg h1]
    by_cases h2 : items.filter (fun item => item.serviceId ≠ "") = []
    · rw [if_pos h2]
      constructor
      · rintro ⟨rec, hcontra⟩
        cases hcontra
      · rintro ⟨-, hne, -⟩
        exact absurd h2 hne
    · rw [if_neg h2]
      by_cases h3 : isBooking = true ∧ finalDate < now ∧ 60000 < now - finalDate
      · rw [if_pos h3]
        constructor
        · rintro ⟨rec, hcontra⟩
          cases hcontra
        · rintro ⟨-, -, himp⟩
          exact absurd (himp h3.1) (by omega)
      · rw [if_neg h3]
        constructor
        · intro _
          refine ⟨h1, h2, ?_⟩
          intro hb
          by_contra hlate
          exact h3 ⟨hb, by omega, by omega⟩
        · intro _
          exact ⟨_, rfl⟩

theorem claim_c9_witness :
    (∃ rec, handleSubmit 60000 true none "A" 0 scenarioItems 0 .amount "" = .saved rec) ∧
    ¬(∃ rec, handleSubmit 61000 true none "A" 0 scenarioItems 0 .amount "" = .saved rec) ∧
    ¬(∃ rec, handleSubmit 0 false none "  " 0 scenarioItems 0 .amount "" = .saved rec) ∧
    ¬(∃ rec, handleSubmit 0 false none "A" 0 [blankItem] 0 .amount "" = .saved rec) := by
  refine ⟨?_, ?_, ?_, ?_⟩
  · exact (claim_c9_submit_validation 60000 true none "A" 0 scenarioItems 0 .amount "").2
      (by decide)
  · intro hmem
    exact absurd ((claim_c9_submit_validation 61000 true none "A" 0 scenarioItems 0
      DiscountType.amount "").1 hmem) (by decide)
  · intro hmem
    exact absurd ((claim_c9_submit_validation 0 false none "  " 0 scenarioItems 0
      DiscountType.amount "").1 hmem) (by decide)
  · intro hmem
    exact absurd ((claim_c9_submit_validation 0 false none "A" 0 [blankItem] 0
      DiscountType.amount "").1 hmem) (by decide)

/-- C6: the this-week revenue window is Monday-start with inclusive start
and exclusive end 7 days later: `startOfWeek` is a midnight whose weekday
is Monday (`getDay = 1`), the week contains `today`, a bill is counted by
`revenueThisWeek`'s filter exactly when
`startOfWeek ≤ date < startOfWeek + 7 days`, a bill dated exactly at the
Monday-midnight start is included, and one dated exactly at the following
Monday midnight is excluded. -/
theorem claim_c6_week_window (today date : Int) (bills : List BillRec) (bill : BillRec) :
    jsGetDay (startOfWeek today) = 1 ∧
    startOfWeek today % msPerDay = 0 ∧
    (startOfWeek today ≤ today ∧ today < endOfWeek today) ∧
    (isWithinThisWeek date today = true ↔
      startOfWeek today ≤ date ∧ date < startOfWeek today + 7 * msPerDay) ∧
    isWithinThisWeek (startOfWeek today) today = true ∧
    isWithinThisWeek (startOfWeek today + 7 * msPerDay) today = false ∧
    (bill ∈ bills.filter (fun x => isWithinThisWeek x.date today) ↔
      bill ∈ bills ∧ startOfWeek today ≤ bill.date ∧ bill.date < endOfWeek today) := by
  have hiff : ∀ d : Int, isWithinThisWeek d today = true ↔
      startOfWeek today ≤ d ∧ d < startOfWeek today + 7 * msPerDay := by
    intro d
    unfold isWithinThisWeek endOfWeek
    simp [Bool.and_eq_true]
  refine ⟨?_, ?_, ?_, hiff date, ?_, ?_, ?_⟩
  · unfold jsGetDay dayNumber startOfWeek currentDayMon jsGetDay dayNumber msPerDay
    rw [Int.mul_ediv_cancel _ (by norm_num)]
    split <;> omega
  · unfold startOfWeek msPerDay
    exact Int.mul_emod_left _ _
  · unfold endOfWeek startOfWeek currentDayMon jsGetDay dayNumber msPerDay
    split <;> omega
  · rw [hiff]
    unfold msPerDay
    omega
  · rw [Bool.eq_false_iff]
    intro hmem
    have h := (hiff (startOfWeek today + 7 * msPerDay)).1 hmem
    unfold msPerDay at h
    omega
  · rw [List.mem_filter, hiff]
    unfold endOfWeek
    rfl

theorem claim_c6_witness :
    jsGetDay (startOfWeek 1760227200000) = 1 ∧
    isWithinThisWeek (startOfWeek 1760227200000) 1760227200000 = true ∧
    isWithinThisWeek (startOfWeek 1760227200000 + 7 * msPerDay) 1760227200000 = false ∧
    (billAnna1 ∈ [billAnna1].filter (fun x => isWithinThisWeek x.date 1760227200000) ↔
      startOfWeek 1760227200000 ≤ 1000 ∧ (1000 : Int) < endOfWeek 1760227200000) := by
  have h := claim_c6_week_window 1760227200000 0 [billAnna1] billAnna1
  refine ⟨h.1, h.2.2.2.2.1, h.2.2.2.2.2.1, ?_⟩
  rw [h.2.2.2.2.2.2]
  simp [billAnna1]

/-- C8: a backup upload that fails to parse shows the read-error alert
and changes nothing; a parsed document whose `bills` or `services` is
absent or not an array shows the invalid-file alert and changes nothing;
a valid document with the confirm declined changes nothing; and a valid,
confirmed document overwrites `bills` and `services` entirely while
`categories` and the settings fields are applied only when present. -/
theorem claim_c8_import_validation (st : StoreState) (confirmed : Bool) (doc : BackupDoc) :
    (handleFileUpload none confirmed st = (st, .readError)) ∧
    ((doc.bills.isArr = false ∨ doc.services.isArr = false) →
      handleFileUpload (some doc) confirmed st = (st, .invalidFile)) ∧
    (∀ (billsArr : List BillRec) (servicesArr : List PredefinedService),
      doc.bills = .arr billsArr → doc.services = .arr servicesArr →
      (handleFileUpload (some doc) false st = (st, .cancelled)) ∧
      ((handleFileUpload (some doc) true st).2 = .applied ∧
        (handleFileUpload (some doc) true st).1.bills = billsArr ∧
        (handleFileUpload (some doc) true st).1.services = servicesArr ∧
        (handleFileUpload (some doc) true st).1.categories =
          (match doc.categories with
            | .arr cats => cats
            | _ => st.categories) ∧
        (handleFileUpload (some doc) true st).1.shopName =
          (match doc.settings with
            | some sdoc => sdoc.shopName.getD st.shopName
            | none => st.shopName) ∧
        (handleFileUpload (some doc) true st).1.billTheme =
          (match doc.settings with
            | some sdoc => sdoc.billTheme.getD st.billTheme
            | none => st.billTheme))) := by
  refine ⟨rfl, ?_, ?_⟩
  · intro hbad
    unfold handleFileUpload
    rcases hb : doc.bills with _ | _ | billsArr <;>
      rcases hs : doc.services with _ | _ | servicesArr <;>
        simp_all [JsonField.isArr]
  · intro billsArr servicesArr hb hs
    unfold handleFileUpload
    dsimp only
    rw [hb, hs]
    refine ⟨rfl, rfl, ?_⟩
    rcases hset : doc.settings with _ | ⟨sn, bt⟩
    · rcases hc : doc.categories with _ | _ | cats <;> exact ⟨rfl, rfl, rfl, rfl, rfl⟩
    · rcases sn with _ | n <;> rcases bt with _ | t <;>
        rcases hc : doc.categories with _ | _ | cats <;>
          exact ⟨rfl, rfl, rfl, rfl, rfl⟩

theorem claim_c8_witness :
    handleFileUpload none true sampleStore = (sampleStore, .readError) ∧
    handleFileUpload (some badDoc) true sampleStore = (sampleStore, .invalidFile) ∧
    handleFileUpload (some sampleDoc) false sampleStore = (sampleStore, .cancelled) ∧
    (handleFileUpload (some sampleDoc) true sampleStore).1.bills = [billAnna1] ∧
    (handleFileUpload (some sampleDoc) true sampleStore).1.services = [svcA] ∧
    (handleFileUpload (some sampleDoc) true sampleStore).1.categories = [] ∧
    (handleFileUpload (some sampleDoc) true sampleStore).1.shopName = "Nail Spa" := by
  have h1 := claim_c8_import_validation sampleStore true badDoc
  have h2 := claim_c8_import_validation sampleStore false sampleDoc
  have h3 := (claim_c8_import_validation sampleStore true sampleDoc).2.2
    [billAnna1] [svcA] rfl rfl
  refine ⟨h1.1, h1.2.1 (by decide), (h2.2.2 [billAnna1] [svcA] rfl rfl).1,
    h3.2.2.1, h3.2.2.2.1, h3.2.2.2.2.1.trans (by decide), h3.2.2.2.2.2.1.trans (by decide)⟩

theorem mapGet_set_self (m : List (String × AggData)) (k : String) (v : AggData) :
    mapGet (mapSet m k v) k = some v := by
  induction m with
  | nil => simp [mapSet, mapGet, List.find?]
  | cons p m ih =>
    unfold mapSet
    by_cases hp : p.1 = k
    · rw [if_pos hp]
      simp [mapGet, List.find?]
    · rw [if_neg hp]
      unfold mapGet at ih ⊢
      rw [List.find?_cons_of_neg _ (by simpa using hp)]
      exact ih

theorem mapGet_set_ne (m : List (String × AggData)) (k k2 : String) (v : AggData)
    (h : k2 ≠ k) : mapGet (mapSet m k v) k2 = mapGet m k2 := by
  induction m with
  | nil =>
    simp only [mapSet, mapGet]
    rw [List.find?_cons_of_neg _ (by simpa using fun he => h he.symm)]
  | cons p m ih =>
    unfold mapSet
    by_cases hp : p.1 = k
    · rw [if_pos hp]
      unfold mapGet
      rw [List.find?_cons_of_neg _ (by simpa using fun he => h he.symm),
        List.find?_cons_of_neg _ (by simp [hp]; exact fun he => h he.symm)]
    · rw [if_neg hp]
      unfold mapGet at ih ⊢
      by_cases hp2 : p.1 = k2
      · rw [List.find?_cons_of_pos _ (by simpa using hp2),
          List.find?_cons_of_pos _ (by simpa using hp2)]
      · rw [List.find?_cons_of_neg _ (by simpa using hp2),
          List.find?_cons_of_neg _ (by simpa using hp2)]
        exact ih

theorem mapGet_isSome (m : List (String × AggData)) (k : String) :
    (mapGet m k).isSome = (m.find? (fun p => p.1 = k)).isSome := by
  unfold mapGet
  cases m.find? (fun p => p.1 = k) <;> rfl

theorem mem_mapKeys_iff (m : List (String × AggData)) (k : String) :
    k ∈ mapKeys m ↔ (mapGet m k).isSome := by
  rw [mapGet_isSome, List.find?_isSome]
  simp [mapKeys, List.mem_map, eq_comm]

theorem extendO_some (bs : List BillRec) :
    ∀ a : AggData, extendO (some a) bs =
      some ⟨a.totalSpent + ((bs.map (·.total)).sum), a.visits ++ bs.map mkVisit⟩ := by
  induction bs with
  | nil => intro a; simp [extendO]
  | cons b bs ih =>
    intro a
    show extendO (some ⟨a.totalSpent + b.total, a.visits ++ [mkVisit b]⟩) bs = _
    rw [ih]
    simp only [List.map_cons, List.sum_cons, Option.some.injEq, AggData.mk.injEq]
    constructor
    · ring
    · simp

theorem extendO_none (bs : List BillRec) (h : bs ≠ []) :
    extendO none bs = some ⟨(bs.map (·.total)).sum, bs.map mkVisit⟩ := by
  cases bs with
  | nil => exact absurd rfl h
  | cons b bs =>
    show extendO (some ⟨0 + b.total, [] ++ [mkVisit b]⟩) bs = _
    rw [extendO_some]
    simp only [List.map_cons, List.sum_cons, Option.some.injEq, AggData.mk.injEq]
    constructor
    · ring
    · simp

theorem aggStep_blank (m : List (String × AggData)) (bill : BillRec)
    (h : jsTrim bill.customerName = "") : aggStep m bill = m := by
  unfold aggStep
  rw [if_pos h]

theorem aggStep_named (m : List (String × AggData)) (bill : BillRec)
    (h : jsTrim bill.customerName ≠ "") :
    aggStep m bill = mapSet m (statsKey bill.customerName)
      ⟨((mapGet m (statsKey bill.customerName)).getD ⟨0, []⟩).totalSpent + bill.total,
        ((mapGet m (statsKey bill.customerName)).getD ⟨0, []⟩).visits ++ [mkVisit bill]⟩ := by
  unfold aggStep
  rw [if_neg h]
  rfl

theorem billsFor_cons_skip (bills : List BillRec) (bill : BillRec) (key : String)
    (h : ¬(jsTrim bill.customerName ≠ "" ∧ statsKey bill.customerName = key)) :
    billsFor (bill :: bills) key = billsFor bills key := by
  unfold billsFor
  rw [List.filter_cons_of_neg]
  simpa using h

theorem billsFor_cons_keep (bills : List BillRec) (bill : BillRec) (key : String)
    (h1 : jsTrim bill.customerName ≠ "") (h2 : statsKey bill.customerName = key) :
    billsFor (bill :: bills) key = bill :: billsFor bills key := by
  unfold billsFor
  rw [List.filter_cons_of_pos]
  simpa using ⟨h1, h2⟩

/-- The value stored at one key after folding `aggStep` over a bill list
is the extension of the accumulator's value by the bills grouped under
that key. -/
theorem agg_get_fold (bills : List BillRec) :
    ∀ (m : List (String × AggData)) (key : String),
      mapGet (bills.foldl aggStep m) key = extendO (mapGet m key) (billsFor bills key) := by
  induction bills with
  | nil => intro m key; rfl
  | cons bill bills ih =>
    intro m key
    rw [List.foldl_cons]
    by_cases hname : jsTrim bill.customerName = ""
    · rw [aggStep_blank m bill hname, ih,
        billsFor_cons_skip bills bill key (by intro hc; exact hc.1 hname)]
    · rw [aggStep_named m bill hname, ih]
      by_cases hkey : statsKey bill.customerName = key
      · rw [billsFor_cons_keep bills bill key hname hkey]
        rw [hkey, mapGet_set_self]
        rfl
      · rw [billsFor_cons_skip bills bill key (by intro hc; exact hkey hc.2),
          mapGet_set_ne m _ key _ (fun he => hkey he.symm)]

theorem agg_get (bills : List BillRec) (key : String) :
    mapGet (aggregateBills bills) key = extendO none (billsFor bills key) :=
  agg_get_fold bills [] key

theorem sortVisitsDesc_perm (l : List VisitRecord) : (sortVisitsDesc l).Perm l :=
  jsSort_perm _ l

theorem sortVisitsDesc_pairwise (l : List VisitRecord) :
    (sortVisitsDesc l).Pairwise (fun v w => w.date ≤ v.date) := by
  have h := jsSort_pairwise (fun a b => decide (b.date ≤ a.date))
    (fun a b => by
      rcases Int.le_total b.date a.date with h' | h'
      · exact Or.inl (decide_eq_true h')
      · exact Or.inr (decide_eq_true h'))
    (fun a b c hab hbc =>
      decide_eq_true (le_trans (of_decide_eq_true hbc) (of_decide_eq_true hab)))
    l
  exact h.imp (fun hab => of_decide_eq_true hab)

/-- The fields of a merged manual-customer row, computed from the bills
grouped under the profile's normalized name. -/
theorem statFromCustomer_fields (bills : List BillRec) (cust : Customer) :
    (statFromCustomer (aggregateBills bills) cust).id = some cust.id ∧
    (statFromCustomer (aggregateBills bills) cust).name = cust.name ∧
    (statFromCustomer (aggregateBills bills) cust).phone = cust.phone ∧
    (statFromCustomer (aggregateBills bills) cust).dob = cust.dob ∧
    (statFromCustomer (aggregateBills bills) cust).totalSpent =
      ((billsFor bills (custKey cust)).map (·.total)).sum ∧
    (statFromCustomer (aggregateBills bills) cust).visitCount =
      (billsFor bills (custKey cust)).length ∧
    (statFromCustomer (aggregateBills bills) cust).visitHistory.Perm
      ((billsFor bills (custKey cust)).map mkVisit) ∧
    (statFromCustomer (aggregateBills bills) cust).visitHistory.Pairwise
      (fun v w => w.date ≤ v.date) := by
  have hget := agg_get bills (custKey cust)
  by_cases hbf : billsFor bills (custKey cust) = []
  · have hnone : mapGet (aggregateBills bills) (custKey cust) = none := by
      rw [hget, hbf]
      rfl
    have hstat : statFromCustomer (aggregateBills bills) cust =
        { id := some cust.id, name := cust.name, phone := cust.phone, dob := cust.dob,
          totalSpent := 0, visitCount := 0, lastVisitDate := none, visitHistory := [] } := by
      unfold statFromCustomer
      rw [hnone]
      rfl
    rw [hstat, hbf]
    exact ⟨rfl, rfl, rfl, rfl, by simp, by simp, by simp, by simp⟩
  · have hsome : mapGet (aggregateBills bills) (custKey cust) =
        some ⟨((billsFor bills (custKey cust)).map (·.total)).sum,
          (billsFor bills (custKey cust)).map mkVisit⟩ := by
      rw [hget]
      exact extendO_none _ hbf
    have hstat : statFromCustomer (aggregateBills bills) cust =
        { id := some cust.id, name := cust.name, phone := cust.phone, dob := cust.dob,
          totalSpent := ((billsFor bills (custKey cust)).map (·.total)).sum,
          visitCount := (sortVisitsDesc ((billsFor bills (custKey cust)).map mkVisit)).length,
          lastVisitDate :=
            ((sortVisitsDesc ((billsFor bills (custKey cust)).map mkVisit)).head?).map (·.date),
          visitHistory := sortVisitsDesc ((billsFor bills (custKey cust)).map mkVisit) } := by
      unfold statFromCustomer
      rw [hsome]
      rfl
    rw [hstat]
    refine ⟨rfl, rfl, rfl, rfl, rfl, ?_, sortVisitsDesc_perm _, sortVisitsDesc_pairwise _⟩
    rw [(sortVisitsDesc_perm _).length_eq, List.length_map]

/-- C7: the per-customer stats view groups bills by trimmed, lowercased
customer name (the spec's "Anna "/"anna" scenario yields one row with
2 visits and the summed total); every manual profile yields a row keeping
its id, name casing, phone and dob, with total spent / visit count /
history computed from the bills grouped under its normalized name
(zero-valued with no bills) and the history sorted newest-first; and
every bill whose normalized name matches no profile yields a row without
a profile id carrying the same aggregates. -/
theorem claim_c7_customer_stats :
    ((customerStats [billAnna1, billAnna2] []).map
      (fun stat => (stat.name, stat.visitCount, stat.totalSpent)) = [("anna", 2, 300000)]) ∧
    (∀ (bills : List BillRec) (customers : List Customer) (cust : Customer),
      cust ∈ customers →
      ∃ stat ∈ customerStats bills customers,
        stat.id = some cust.id ∧ stat.name = cust.name ∧ stat.phone = cust.phone ∧
        stat.dob = cust.dob ∧
        stat.totalSpent = ((billsFor bills (custKey cust)).map (·.total)).sum ∧
        stat.visitCount = (billsFor bills (custKey cust)).length ∧
        stat.visitHistory.Perm ((billsFor bills (custKey cust)).map mkVisit) ∧
        stat.visitHistory.Pairwise (fun v w => w.date ≤ v.date) ∧
        stat.lastVisitDate = (stat.visitHistory.head?).map (·.date)) ∧
    (∀ (bills : List BillRec) (customers : List Customer) (b : BillRec),
      b ∈ bills → jsTrim b.customerName ≠ "" →
      (∀ c ∈ customers, custKey c ≠ statsKey b.customerName) →
      ∃ stat ∈ customerStats bills customers,
        stat.id = none ∧
        stat.totalSpent = ((billsFor bills (statsKey b.customerName)).map (·.total)).sum ∧
        stat.visitCount = (billsFor bills (statsKey b.customerName)).length ∧
        stat.visitHistory.Perm ((billsFor bills (statsKey b.customerName)).map mkVisit) ∧
        stat.visitHistory.Pairwise (fun v w => w.date ≤ v.date)) := by
  refine ⟨by decide, ?_, ?_⟩
  · intro bills customers cust hcust
    refine ⟨statFromCustomer (aggregateBills bills) cust, ?_, ?_⟩
    · simp only [customerStats]
      refine (jsSort_perm _ _).mem_iff.2 (List.mem_append_left _ ?_)
      exact List.mem_map_of_mem _ hcust
    · have h := statFromCustomer_fields bills cust
      exact ⟨h.1, h.2.1, h.2.2.1, h.2.2.2.1, h.2.2.2.2.1, h.2.2.2.2.2.1,
        h.2.2.2.2.2.2.1, h.2.2.2.2.2.2.2, rfl⟩
  · intro bills customers b hb hbname hnoc
    have hbmem : b ∈ billsFor bills (statsKey b.customerName) := by
      unfold billsFor
      rw [List.mem_filter]
      exact ⟨hb, decide_eq_true ⟨hbname, rfl⟩⟩
    have hbf : billsFor bills (statsKey b.customerName) ≠ [] := by
      intro he
      rw [he] at hbmem
      cases hbmem
    have hsome : mapGet (aggregateBills bills) (statsKey b.customerName) =
        some ⟨((billsFor bills (statsKey b.customerName)).map (·.total)).sum,
          (billsFor bills (statsKey b.customerName)).map mkVisit⟩ := by
      rw [agg_get]
      exact extendO_none _ hbf
    refine ⟨statFromBillsOnly bills (statsKey b.customerName)
      ⟨((billsFor bills (statsKey b.customerName)).map (·.total)).sum,
        (billsFor bills (statsKey b.customerName)).map mkVisit⟩, ?_, ?_⟩
    · simp only [customerStats]
      refine (jsSort_perm _ _).mem_iff.2 (List.mem_append_right _ ?_)
      rw [List.mem_filterMap]
      refine ⟨statsKey b.customerName, ?_, ?_⟩
      · rw [List.mem_filter]
        constructor
        · exact (mem_mapKeys_iff _ _).2 (by rw [hsome]; rfl)
        · refine decide_eq_true ?_
          intro hany
          rcases List.any_eq_true.1 hany with ⟨c, hc, hck⟩
          exact hnoc c hc (of_decide_eq_true hck)
      · rw [hsome]
        rfl
    · refine ⟨rfl, rfl, ?_, ?_, ?_⟩
      · show (sortVisitsDesc _).length = _
        rw [(sortVisitsDesc_perm _).length_eq, List.length_map]
      · exact sortVisitsDesc_perm _
      · exact sortVisitsDesc_pairwise _

theorem claim_c7_witness :
    ((customerStats [billAnna1, billAnna2] []).map
      (fun stat => (stat.name, stat.visitCount, stat.totalSpent)) = [("anna", 2, 300000)]) ∧
    (∃ stat ∈ customerStats [] [custMai],
      stat.id = some "cust-1" ∧ stat.totalSpent = 0 ∧ stat.visitCount = 0) ∧
    (∃ stat ∈ customerStats [billAnna1, billAnna2] [custMai],
      stat.id = none ∧ stat.totalSpent = 300000 ∧ stat.visitCount = 2) := by
  have h := claim_c7_customer_stats
  refine ⟨h.1, ?_, ?_⟩
  · obtain ⟨stat, hmem, hid, -, -, -, htot, hcount, -⟩ :=
      h.2.1 [] [custMai] custMai (by simp)
    exact ⟨stat, hmem, hid, htot.trans (by decide), hcount.trans (by decide)⟩
  · obtain ⟨stat, hmem, hid, htot, hcount, -⟩ :=
      h.2.2 [billAnna1, billAnna2] [custMai] billAnna1 (by simp) (by decide) (by decide)
    exact ⟨stat, hmem, hid, htot.trans (by decide), hcount.trans (by decide)⟩

end NailSpa
